import Mathlib

/-!
Shallow embedding of the discord-reels-reposter core pipeline:
`src/utils/compressor.py` (probe / bitrate planning / compression ladder),
`src/utils/downloader.py` (`cleanup_file`) and
`src/cogs/video_handler.py` (`VideoHandler.process_video_url`).

The filesystem is modelled as a map from paths to file sizes; the external
collaborators (yt-dlp download, ffmpeg probe, ffmpeg encode, Discord upload)
are oracles supplied as parameters, matching the per-call behaviour the code
can observe.  Real (float) arithmetic of the Python source is modelled by
exact rationals; Python `int()` is truncation toward zero.
-/

namespace ReelsReposter

/-- Python `int()` applied to a (rational-valued) number: truncation toward zero. -/
def pyInt (q : ℚ) : ℤ := if 0 ≤ q then ⌊q⌋ else ⌈q⌉

/-- Index of the last occurrence of a character in a list, if any. -/
def lastIdxOf (c : Char) : List Char → Option ℕ
  | [] => none
  | a :: rest =>
    match lastIdxOf c rest with
    | some i => some (i + 1)
    | none => if a = c then some 0 else none

/-- Embedding of POSIX `os.path.splitext`: split at the last dot of the final
path component, unless every character between the last slash and that dot is
itself a dot (leading dots of a basename never start an extension). -/
def splitext (p : String) : String × String :=
  let cs := p.data
  let start : ℕ := match lastIdxOf '/' cs with | some i => i + 1 | none => 0
  match lastIdxOf '.' cs with
  | some d =>
      if start ≤ d ∧ ((List.range' start (d - start)).any fun j => cs.getD j ' ' != '.') = true then
        (⟨cs.take d⟩, ⟨cs.drop d⟩)
      else (p, "")
  | none => (p, "")

/-- Deterministic candidate output path of `compress_video`
(compressor.py lines 30–31): base + "_compressed" + extension. -/
def output_path (input_path : String) : String :=
  (splitext input_path).1 ++ "_compressed" ++ (splitext input_path).2

/-- Target video bitrate of the first compression attempt
(compressor.py line 49): `int((target_size_bytes * 8 * 0.85) / duration)`. -/
def target_bitrate (target_size_bytes : ℕ) (duration : ℚ) : ℤ :=
  pyInt ((target_size_bytes * 8 * (85 / 100 : ℚ)) / duration)

/-- Video bitrates of the three-entry compression ladder
(compressor.py lines 52–56): the base bitrate, `int(base * 0.8)`, `int(base * 0.6)`. -/
def compression_levels (target_size_bytes : ℕ) (duration : ℚ) : List ℤ :=
  [target_bitrate target_size_bytes duration,
   pyInt ((target_bitrate target_size_bytes duration : ℚ) * (8 / 10)),
   pyInt ((target_bitrate target_size_bytes duration : ℚ) * (6 / 10))]

/-! ### Filesystem model -/

/-- Filesystem state: each path maps to the size of the file stored there, if any. -/
def FS := String → Option ℕ

/-- `os.remove` (plus the guarding `os.path.exists` checks used by the source). -/
def FS.remove (p : String) (fs : FS) : FS := fun q => if q = p then none else fs q

/-- Write (or erase, when `v = none`) the file at path `p`. -/
def FS.set (p : String) (v : Option ℕ) (fs : FS) : FS := fun q => if q = p then v else fs q

/-- Embedding of `cleanup_file` (downloader.py lines 61–73): delete the file if
it exists, never raising; a missing path is a no-op. -/
def cleanup_file (p : String) (fs : FS) : FS :=
  if (fs p).isSome then FS.remove p fs else fs

theorem FS.remove_self (p : String) (fs : FS) : FS.remove p fs p = none := by
  simp [FS.remove]

theorem FS.remove_other (p q : String) (fs : FS) (h : q ≠ p) : FS.remove p fs q = fs q := by
  simp [FS.remove, h]

theorem FS.set_self (p : String) (v : Option ℕ) (fs : FS) : FS.set p v fs p = v := by
  simp [FS.set]

theorem FS.set_other (p q : String) (v : Option ℕ) (fs : FS) (h : q ≠ p) :
    FS.set p v fs q = fs q := by
  simp [FS.set, h]

theorem cleanup_file_self (p : String) (fs : FS) : cleanup_file p fs p = none := by
  unfold cleanup_file
  rcases h : fs p with _ | v <;> simp [h, FS.remove]

theorem cleanup_file_other (p q : String) (fs : FS) (h : q ≠ p) :
    cleanup_file p fs q = fs q := by
  unfold cleanup_file
  split <;> simp [FS.remove, h]

theorem cleanup_file_noop (p : String) (fs : FS) (h : fs p = none) :
    cleanup_file p fs = fs := by
  simp [cleanup_file, h]

/-! ### Compression engine (compressor.py, `compress_video`) -/

/-- Observable behaviour of one `ffmpeg.run` invocation: whether it raised, and
the file (with its size) left at the output path afterwards, if any. -/
structure EncodeOutcome where
  raised : Bool
  out : Option ℕ
deriving DecidableEq

/-- Observable behaviour of `ffmpeg.probe`: a raised exception, or a format
dictionary whose `duration` and `size` entries may each be missing/unparsable. -/
inductive ProbeRes
  | err : ProbeRes
  | ok (duration : Option ℚ) (size : Option ℕ) : ProbeRes

/-- Result of `compress_video`: either an exception escaped the function, or it
returned (`some` output path / `None`). -/
inductive CompressRes
  | exc : CompressRes
  | ret (r : Option String) : CompressRes
deriving DecidableEq

/-- An encode attempt whose output exists and fits the budget: the condition
under which the loop body returns (compressor.py lines 84–90); a raised
invocation is caught first (lines 94–97) and never returns. -/
def fitsB (B : ℕ) (e : EncodeOutcome) : Bool :=
  !e.raised && (match e.out with | some sz => decide (sz ≤ B) | none => false)

/-- Aggregated outcome of the attempt loop: returned path (if any), final
filesystem, 1-based indices of the attempts that were executed, and the
intermediate filesystem states in order. -/
structure LoopOut where
  res : Option String
  fs : FS
  execed : List ℕ
  trace : List FS

/-- The attempt loop of `compress_video` (compressor.py lines 58–97): per
attempt, remove any previous candidate, run the encoder, and return the output
path if the candidate exists and fits; a raised encode or an oversized/missing
candidate falls through to the next attempt. -/
def compressLoop (outp : String) (B : ℕ) (enc : ℕ → EncodeOutcome) :
    List ℕ → FS → LoopOut
  | [], fs => ⟨none, fs, [], []⟩
  | k :: rest, fs =>
      let fs1 := FS.remove outp fs
      let fs2 := FS.set outp (enc k).out fs1
      if (enc k).raised then
        let o := compressLoop outp B enc rest fs2
        ⟨o.res, o.fs, k :: o.execed, fs1 :: fs2 :: o.trace⟩
      else
        match (enc k).out with
        | some sz =>
            if sz ≤ B then ⟨some outp, fs2, [k], [fs1, fs2]⟩
            else
              let o := compressLoop outp B enc rest fs2
              ⟨o.res, o.fs, k :: o.execed, fs1 :: fs2 :: o.trace⟩
        | none =>
            let o := compressLoop outp B enc rest fs2
            ⟨o.res, o.fs, k :: o.execed, fs1 :: fs2 :: o.trace⟩

/-- Everything `compress_video` reports: its result, the final filesystem, the
attempts executed, and the intermediate filesystem states. -/
structure CompressOut where
  res : CompressRes
  fs : FS
  execed : List ℕ
  trace : List FS

/-- Embedding of `compress_video` (compressor.py lines 12–104).  The probe is
read inside a try/except returning `None` on any failure (lines 34–43); the
bitrate computation at line 49 divides by the probed duration outside every
try/except, so a zero duration raises an uncaught `ZeroDivisionError`; the
ladder is truncated to `max_attempts` entries and iterated with 1-based
indices; after an unsuccessful ladder, any leftover candidate is removed
(lines 101–102). -/
def compress_video (fs : FS) (input_path : String) (target_size_bytes : ℕ)
    (max_attempts : ℕ) (pr : ProbeRes) (enc : ℕ → EncodeOutcome) : CompressOut :=
  match pr with
  | .err => ⟨.ret none, fs, [], []⟩
  | .ok dur size =>
    match dur with
    | none => ⟨.ret none, fs, [], []⟩
    | some d =>
      match size with
      | none => ⟨.ret none, fs, [], []⟩
      | some _ =>
        if d = 0 then ⟨.exc, fs, [], []⟩
        else
          let n := ((compression_levels target_size_bytes d).take max_attempts).length
          let o := compressLoop (output_path input_path) target_size_bytes enc
            (List.range' 1 n) fs
          match o.res with
          | some p => ⟨.ret (some p), o.fs, o.execed, o.trace⟩
          | none =>
              ⟨.ret none, FS.remove (output_path input_path) o.fs, o.execed,
               o.trace ++ [FS.remove (output_path input_path) o.fs]⟩

/-! ### Lemmas about the attempt loop -/

theorem compressLoop_cons_fits (outp : String) (B : ℕ) (enc : ℕ → EncodeOutcome)
    (k : ℕ) (rest : List ℕ) (fs : FS) (h : fitsB B (enc k) = true) :
    compressLoop outp B enc (k :: rest) fs =
      ⟨some outp, FS.set outp (enc k).out (FS.remove outp fs), [k],
       [FS.remove outp fs, FS.set outp (enc k).out (FS.remove outp fs)]⟩ := by
  unfold fitsB at h
  conv_lhs => rw [compressLoop]
  rcases hr : (enc k).raised with _ | _
  · rcases ho : (enc k).out with _ | sz
    · simp [hr, ho] at h
    · simp only [hr, ho, Bool.not_false, Bool.true_and, decide_eq_true_eq] at h
      simp [hr, ho, h]
  · simp [hr] at h

theorem compressLoop_cons_nofits (outp : String) (B : ℕ) (enc : ℕ → EncodeOutcome)
    (k : ℕ) (rest : List ℕ) (fs : FS) (h : fitsB B (enc k) = false) :
    compressLoop outp B enc (k :: rest) fs =
      ⟨(compressLoop outp B enc rest (FS.set outp (enc k).out (FS.remove outp fs))).res,
       (compressLoop outp B enc rest (FS.set outp (enc k).out (FS.remove outp fs))).fs,
       k :: (compressLoop outp B enc rest (FS.set outp (enc k).out (FS.remove outp fs))).execed,
       FS.remove outp fs :: FS.set outp (enc k).out (FS.remove outp fs) ::
         (compressLoop outp B enc rest (FS.set outp (enc k).out (FS.remove outp fs))).trace⟩ := by
  unfold fitsB at h
  conv_lhs => rw [compressLoop]
  rcases hr : (enc k).raised with _ | _
  · rcases ho : (enc k).out with _ | sz
    · simp [hr, ho]
    · simp only [hr, ho, Bool.not_false, Bool.true_and, decide_eq_false_iff_not] at h
      simp [hr, ho, h]
  · simp [hr]

theorem compressLoop_fs_frame (outp : String) (B : ℕ) (enc : ℕ → EncodeOutcome) :
    ∀ (l : List ℕ) (fs : FS) (p : String), p ≠ outp →
      (compressLoop outp B enc l fs).fs p = fs p := by
  intro l
  induction l with
  | nil => intro fs p hp; rfl
  | cons k rest ih =>
    intro fs p hp
    by_cases h : fitsB B (enc k) = true
    · rw [compressLoop_cons_fits outp B enc k rest fs h]
      simp [FS.set_other _ _ _ _ hp, FS.remove_other _ _ _ hp]
    · rw [compressLoop_cons_nofits outp B enc k rest fs (by simpa using h)]
      rw [ih _ _ hp]
      simp [FS.set_other _ _ _ _ hp, FS.remove_other _ _ _ hp]

theorem compressLoop_trace_frame (outp : String) (B : ℕ) (enc : ℕ → EncodeOutcome) :
    ∀ (l : List ℕ) (fs : FS), ∀ s ∈ (compressLoop outp B enc l fs).trace,
      ∀ (p : String), p ≠ outp → s p = fs p := by
  intro l
  induction l with
  | nil => intro fs s hs; simp [compressLoop] at hs
  | cons k rest ih =>
    intro fs s hs p hp
    by_cases h : fitsB B (enc k) = true
    · rw [compressLoop_cons_fits outp B enc k rest fs h] at hs
      simp only [List.mem_cons, List.mem_singleton, List.not_mem_nil, or_false] at hs
      rcases hs with rfl | rfl
      · exact FS.remove_other _ _ _ hp
      · rw [FS.set_other _ _ _ _ hp, FS.remove_other _ _ _ hp]
    · rw [compressLoop_cons_nofits outp B enc k rest fs (by simpa using h)] at hs
      simp only [List.mem_cons] at hs
      rcases hs with rfl | rfl | hs
      · exact FS.remove_other _ _ _ hp
      · rw [FS.set_other _ _ _ _ hp, FS.remove_other _ _ _ hp]
      · rw [ih _ s hs p hp, FS.set_other _ _ _ _ hp, FS.remove_other _ _ _ hp]

theorem compressLoop_allNofits (outp : String) (B : ℕ) (enc : ℕ → EncodeOutcome) :
    ∀ (l : List ℕ) (fs : FS), (∀ j ∈ l, fitsB B (enc j) = false) →
      (compressLoop outp B enc l fs).res = none ∧
      (compressLoop outp B enc l fs).execed = l := by
  intro l
  induction l with
  | nil => intro fs _; exact ⟨rfl, rfl⟩
  | cons k rest ih =>
    intro fs hall
    rw [compressLoop_cons_nofits outp B enc k rest fs (hall k (List.mem_cons_self k rest))]
    have h2 := ih (FS.set outp (enc k).out (FS.remove outp fs))
      (fun j hj => hall j (List.mem_cons_of_mem k hj))
    exact ⟨h2.1, by rw [h2.2]⟩

theorem compressLoop_firstFit (outp : String) (B : ℕ) (enc : ℕ → EncodeOutcome) :
    ∀ (pre : List ℕ) (k : ℕ) (rest : List ℕ) (fs : FS),
      (∀ j ∈ pre, fitsB B (enc j) = false) → fitsB B (enc k) = true →
      (compressLoop outp B enc (pre ++ k :: rest) fs).res = some outp ∧
      (compressLoop outp B enc (pre ++ k :: rest) fs).execed = pre ++ [k] := by
  intro pre
  induction pre with
  | nil =>
    intro k rest fs _ hfit
    rw [List.nil_append, compressLoop_cons_fits outp B enc k rest fs hfit]
    exact ⟨rfl, rfl⟩
  | cons j pre ih =>
    intro k rest fs hpre hfit
    rw [List.cons_append,
      compressLoop_cons_nofits outp B enc j (pre ++ k :: rest) fs
        (hpre j (List.mem_cons_self j pre))]
    have h2 := ih k rest (FS.set outp (enc j).out (FS.remove outp fs))
      (fun i hi => hpre i (List.mem_cons_of_mem j hi)) hfit
    exact ⟨h2.1, by rw [h2.2]; rfl⟩

theorem compressLoop_mem_exec (outp : String) (B : ℕ) (enc : ℕ → EncodeOutcome) :
    ∀ (pre : List ℕ) (k : ℕ) (rest : List ℕ) (fs : FS),
      (∀ j ∈ pre, fitsB B (enc j) = false) →
      k ∈ (compressLoop outp B enc (pre ++ k :: rest) fs).execed := by
  intro pre
  induction pre with
  | nil =>
    intro k rest fs _
    rw [List.nil_append]
    by_cases h : fitsB B (enc k) = true
    · rw [compressLoop_cons_fits outp B enc k rest fs h]
      exact List.mem_singleton.mpr rfl
    · rw [compressLoop_cons_nofits outp B enc k rest fs (by simpa using h)]
      exact List.mem_cons_self _ _
  | cons j pre ih =>
    intro k rest fs hpre
    rw [List.cons_append,
      compressLoop_cons_nofits outp B enc j (pre ++ k :: rest) fs
        (hpre j (List.mem_cons_self j pre))]
    exact List.mem_cons_of_mem j
      (ih k rest _ (fun i hi => hpre i (List.mem_cons_of_mem j hi)))

theorem compressLoop_res_some (outp : String) (B : ℕ) (enc : ℕ → EncodeOutcome) :
    ∀ (l : List ℕ) (fs : FS) (p : String),
      (compressLoop outp B enc l fs).res = some p → p = outp := by
  intro l
  induction l with
  | nil => intro fs p h; simp [compressLoop] at h
  | cons k rest ih =>
    intro fs p h
    by_cases hf : fitsB B (enc k) = true
    · rw [compressLoop_cons_fits outp B enc k rest fs hf] at h
      exact (Option.some_inj.mp h).symm
    · rw [compressLoop_cons_nofits outp B enc k rest fs (by simpa using hf)] at h
      exact ih _ p h

/-! ### Lemmas about `compress_video` -/

theorem levels_take_length (B : ℕ) (d : ℚ) (m : ℕ) :
    ((compression_levels B d).take m).length = min m 3 := by
  simp [compression_levels]

theorem compress_video_ok_none (fs : FS) (i : String) (B m : ℕ) (d : ℚ) (sz : ℕ)
    (enc : ℕ → EncodeOutcome) (hd : ¬ d = 0)
    (hres : (compressLoop (output_path i) B enc (List.range' 1 (min m 3)) fs).res = none) :
    compress_video fs i B m (ProbeRes.ok (some d) (some sz)) enc =
      ⟨CompressRes.ret none,
       FS.remove (output_path i)
         (compressLoop (output_path i) B enc (List.range' 1 (min m 3)) fs).fs,
       (compressLoop (output_path i) B enc (List.range' 1 (min m 3)) fs).execed,
       (compressLoop (output_path i) B enc (List.range' 1 (min m 3)) fs).trace ++
         [FS.remove (output_path i)
           (compressLoop (output_path i) B enc (List.range' 1 (min m 3)) fs).fs]⟩ := by
  simp only [compress_video, if_neg hd, levels_take_length, hres]

theorem compress_video_ok_some (fs : FS) (i : String) (B m : ℕ) (d : ℚ) (sz : ℕ)
    (enc : ℕ → EncodeOutcome) (p : String) (hd : ¬ d = 0)
    (hres : (compressLoop (output_path i) B enc (List.range' 1 (min m 3)) fs).res = some p) :
    compress_video fs i B m (ProbeRes.ok (some d) (some sz)) enc =
      ⟨CompressRes.ret (some p),
       (compressLoop (output_path i) B enc (List.range' 1 (min m 3)) fs).fs,
       (compressLoop (output_path i) B enc (List.range' 1 (min m 3)) fs).execed,
       (compressLoop (output_path i) B enc (List.range' 1 (min m 3)) fs).trace⟩ := by
  simp only [compress_video, if_neg hd, levels_take_length, hres]

theorem compress_video_fs_frame (fs : FS) (i : String) (B m : ℕ) (pr : ProbeRes)
    (enc : ℕ → EncodeOutcome) (p : String) (hp : p ≠ output_path i) :
    (compress_video fs i B m pr enc).fs p = fs p := by
  rcases pr with _ | ⟨_ | d, _ | sz⟩
  · rfl
  · rfl
  · rfl
  · rfl
  · by_cases hd : d = 0
    · simp [compress_video, hd]
    · rcases hres : (compressLoop (output_path i) B enc (List.range' 1 (min m 3)) fs).res
        with _ | q
      · rw [compress_video_ok_none fs i B m d sz enc hd hres]
        dsimp only
        rw [FS.remove_other _ _ _ hp]
        exact compressLoop_fs_frame _ _ _ _ _ _ hp
      · rw [compress_video_ok_some fs i B m d sz enc q hd hres]
        dsimp only
        exact compressLoop_fs_frame _ _ _ _ _ _ hp

theorem compress_video_trace_frame (fs : FS) (i : String) (B m : ℕ) (pr : ProbeRes)
    (enc : ℕ → EncodeOutcome) :
    ∀ s ∈ (compress_video fs i B m pr enc).trace, ∀ (p : String),
      p ≠ output_path i → s p = fs p := by
  rcases pr with _ | ⟨_ | d, _ | sz⟩
  · intro s hs; simp [compress_video] at hs
  · intro s hs; simp [compress_video] at hs
  · intro s hs; simp [compress_video] at hs
  · intro s hs; simp [compress_video] at hs
  · by_cases hd : d = 0
    · intro s hs; simp [compress_video, hd] at hs
    · rcases hres : (compressLoop (output_path i) B enc (List.range' 1 (min m 3)) fs).res
        with _ | q
      · rw [compress_video_ok_none fs i B m d sz enc hd hres]
        dsimp only
        intro s hs p hp
        simp only [List.mem_append, List.mem_singleton] at hs
        rcases hs with hs | rfl
        · exact compressLoop_trace_frame _ _ _ _ _ s hs p hp
        · rw [FS.remove_other _ _ _ hp]
          exact compressLoop_fs_frame _ _ _ _ _ _ hp
      · rw [compress_video_ok_some fs i B m d sz enc q hd hres]
        dsimp only
        intro s hs p hp
        exact compressLoop_trace_frame _ _ _ _ _ s hs p hp

theorem compress_video_ret_some (fs : FS) (i : String) (B m : ℕ) (pr : ProbeRes)
    (enc : ℕ → EncodeOutcome) (p : String)
    (h : (compress_video fs i B m pr enc).res = CompressRes.ret (some p)) :
    p = output_path i := by
  rcases pr with _ | ⟨_ | d, _ | sz⟩
  · simp [compress_video] at h
  · simp [compress_video] at h
  · simp [compress_video] at h
  · simp [compress_video] at h
  · by_cases hd : d = 0
    · simp [compress_video, hd] at h
    · rcases hres : (compressLoop (output_path i) B enc (List.range' 1 (min m 3)) fs).res
        with _ | q
      · rw [compress_video_ok_none fs i B m d sz enc hd hres] at h
        simp at h
      · rw [compress_video_ok_some fs i B m d sz enc q hd hres] at h
        have : q = p := by simpa using h
        subst this
        exact compressLoop_res_some _ _ _ _ _ _ hres

theorem compress_video_ret_none_fs (fs : FS) (i : String) (B m : ℕ) (pr : ProbeRes)
    (enc : ℕ → EncodeOutcome)
    (h : (compress_video fs i B m pr enc).res = CompressRes.ret none) :
    (compress_video fs i B m pr enc).fs (output_path i) = fs (output_path i) ∨
    (compress_video fs i B m pr enc).fs (output_path i) = none := by
  rcases pr with _ | ⟨_ | d, _ | sz⟩
  · exact Or.inl rfl
  · exact Or.inl rfl
  · exact Or.inl rfl
  · exact Or.inl rfl
  · by_cases hd : d = 0
    · simp [compress_video, hd] at h
    · rcases hres : (compressLoop (output_path i) B enc (List.range' 1 (min m 3)) fs).res
        with _ | q
      · rw [compress_video_ok_none fs i B m d sz enc hd hres]
        exact Or.inr (FS.remove_self _ _)
      · rw [compress_video_ok_some fs i B m d sz enc q hd hres] at h
        simp at h

theorem compress_video_res_not_exc (fs : FS) (i : String) (B m : ℕ) (d : ℚ) (sz : ℕ)
    (enc : ℕ → EncodeOutcome) (hd : ¬ d = 0) :
    (compress_video fs i B m (ProbeRes.ok (some d) (some sz)) enc).res ≠ CompressRes.exc := by
  rcases hres : (compressLoop (output_path i) B enc (List.range' 1 (min m 3)) fs).res
    with _ | q
  · rw [compress_video_ok_none fs i B m d sz enc hd hres]
    simp
  · rw [compress_video_ok_some fs i B m d sz enc q hd hres]
    simp

/-! ### Pipeline orchestrator (video_handler.py, `VideoHandler.process_video_url`) -/

/-- What `download_video` reports on success (downloader.py lines 47–51). -/
structure DLInfo where
  filepath : String
  filesize : ℕ
  title : String

/-- Observable behaviour of the upload block (video_handler.py lines 111–141):
the reply succeeds, raises `discord.errors.HTTPException`, or raises any other
exception (e.g. the `open` call failing). -/
inductive UploadRes
  | ok : UploadRes
  | httpErr : UploadRes
  | unexpectedErr : UploadRes

/-- The configuration the orchestrator reads (config.py): `MAX_FILE_SIZE`,
`ENABLE_COMPRESSION`, `MAX_COMPRESSION_ATTEMPTS`. -/
structure Cfg where
  maxFileSize : ℕ
  enableCompression : Bool
  maxAttempts : ℕ

/-- Terminal outcome of one pipeline invocation; `crashed` marks an exception
escaping `process_video_url` (no reply, no cleanup). -/
inductive Outcome
  | delivered : Outcome
  | downloadFailed : Outcome
  | tooLarge : Outcome
  | compressionFailed : Outcome
  | uploadFailed : Outcome
  | crashed : Outcome
deriving DecidableEq

/-- Whether a filesystem snapshot was taken inside the compression engine
(where the original and one candidate may transiently coexist) or outside it. -/
inductive Phase
  | normal : Phase
  | compressing : Phase
deriving DecidableEq

/-- Observable result of one `process_video_url` invocation: terminal outcome,
final filesystem, the paths passed to `cleanup_file` in order, the number of
`message.reply` calls, the filename given to `discord.File` when a reply with
an attachment was sent, and the filesystem snapshots in order. -/
structure RunOut where
  outcome : Outcome
  fs : FS
  cleanups : List String
  replies : ℕ
  attachedFilename : Option String
  trace : List (Phase × FS)

/-- Filename given to the uploaded attachment (video_handler.py line 114):
the title truncated to 50 characters with a hardcoded ".mp4" suffix. -/
def attachment_filename (title : String) : String := title.take 50 ++ ".mp4"

/-- Filesystem effect of a successful `download_video` call. -/
def dlWrite (info : DLInfo) (fs0 : FS) : FS :=
  FS.set info.filepath (some info.filesize) fs0

/-- The upload block (video_handler.py lines 111–145): one reply (with the
attachment on success, with an error text otherwise), then the `finally`
cleanup of the current asset. -/
def uploadStep (fs : FS) (path : String) (title : String) (up : UploadRes)
    (cl0 : List String) (tr : List (Phase × FS)) : RunOut :=
  match up with
  | .ok =>
      ⟨.delivered, cleanup_file path fs, cl0 ++ [path], 1,
       some (attachment_filename title), tr ++ [(Phase.normal, cleanup_file path fs)]⟩
  | .httpErr =>
      ⟨.uploadFailed, cleanup_file path fs, cl0 ++ [path], 1, none,
       tr ++ [(Phase.normal, cleanup_file path fs)]⟩
  | .unexpectedErr =>
      ⟨.uploadFailed, cleanup_file path fs, cl0 ++ [path], 1, none,
       tr ++ [(Phase.normal, cleanup_file path fs)]⟩

/-- Continuation of `process_video_url` after `compress_video` returns
(video_handler.py lines 90–103): on success, the original is cleaned up at once
and the compressed file is adopted; on failure, one failure reply then cleanup
of the original; an escaped exception ends the invocation with no reply and no
cleanup. -/
def afterCompress (fs0 : FS) (info : DLInfo) (co : CompressOut) (up : UploadRes) : RunOut :=
  match co.res with
  | .exc =>
      ⟨.crashed, co.fs, [], 0, none,
       (Phase.normal, dlWrite info fs0) ::
         co.trace.map (fun s => (Phase.compressing, s))⟩
  | .ret none =>
      ⟨.compressionFailed, cleanup_file info.filepath co.fs, [info.filepath], 1, none,
       ((Phase.normal, dlWrite info fs0) ::
         co.trace.map (fun s => (Phase.compressing, s))) ++
         [(Phase.normal, cleanup_file info.filepath co.fs)]⟩
  | .ret (some cp) =>
      uploadStep (cleanup_file info.filepath co.fs) cp info.title up [info.filepath]
        (((Phase.normal, dlWrite info fs0) ::
          co.trace.map (fun s => (Phase.compressing, s))) ++
          [(Phase.normal, cleanup_file info.filepath co.fs)])

/-- Embedding of `VideoHandler.process_video_url` (video_handler.py lines
51–145), one invocation for one URL: download, size check, optional
compression, upload, cleanup; reactions (best-effort status markers) are not
modelled. -/
def process_video_url (fs0 : FS) (cfg : Cfg) (dl : Option DLInfo) (pr : ProbeRes)
    (enc : ℕ → EncodeOutcome) (up : UploadRes) : RunOut :=
  match dl with
  | none => ⟨.downloadFailed, fs0, [], 1, none, [(Phase.normal, fs0)]⟩
  | some info =>
      if cfg.maxFileSize < info.filesize then
        if cfg.enableCompression then
          afterCompress fs0 info
            (compress_video (dlWrite info fs0) info.filepath cfg.maxFileSize
              cfg.maxAttempts pr enc) up
        else
          ⟨.tooLarge, cleanup_file info.filepath (dlWrite info fs0), [info.filepath], 1, none,
           [(Phase.normal, dlWrite info fs0),
            (Phase.normal, cleanup_file info.filepath (dlWrite info fs0))]⟩
      else
        uploadStep (dlWrite info fs0) info.filepath info.title up []
          [(Phase.normal, dlWrite info fs0)]

/-! ### Helper lemmas on paths and ranges -/

theorem splitext_append (p : String) : (splitext p).1 ++ (splitext p).2 = p := by
  unfold splitext
  dsimp only
  rcases h : lastIdxOf '.' p.data with _ | d
  · show String.mk (p.data ++ []) = p
    rw [List.append_nil]
  · dsimp only
    split
    · show String.mk (p.data.take d ++ p.data.drop d) = p
      rw [List.take_append_drop]
    · show String.mk (p.data ++ []) = p
      rw [List.append_nil]

theorem output_path_length (i : String) :
    (output_path i).length = (splitext i).1.length + 11 + (splitext i).2.length := by
  unfold output_path
  rw [String.length_append, String.length_append]
  have h11 : "_compressed".length = 11 := rfl
  omega

theorem output_path_ne (i : String) : output_path i ≠ i := by
  intro h
  have h1 : (output_path i).length = i.length := by rw [h]
  have h2 := output_path_length i
  have h3 : i.length = (splitext i).1.length + (splitext i).2.length := by
    conv_lhs => rw [← splitext_append i]
    rw [String.length_append]
  omega

theorem range'_decomp (k n : ℕ) (h1 : 1 ≤ k) (h2 : k ≤ n) :
    List.range' 1 n = List.range' 1 (k - 1) ++ k :: List.range' (k + 1) (n - k) := by
  have e1 := List.range'_append 1 (k - 1) (n - (k - 1)) 1
  have hk : 1 + 1 * (k - 1) = k := by omega
  have hn : n - (k - 1) + (k - 1) = n := by omega
  rw [hk, hn] at e1
  have e2 : List.range' k (n - (k - 1)) = k :: List.range' (k + 1) (n - k) := by
    have e3 : n - (k - 1) = (n - k) + 1 := by omega
    rw [e3, List.range'_succ]
  rw [← e1, e2]

theorem range'_snoc (k : ℕ) (h1 : 1 ≤ k) :
    List.range' 1 (k - 1) ++ [k] = List.range' 1 k := by
  have e1 := List.range'_append 1 (k - 1) 1 1
  have hk : 1 + 1 * (k - 1) = k := by omega
  have hn : 1 + (k - 1) = k := by omega
  rw [hk, hn] at e1
  rw [← e1]
  rfl

/-! ### Claim C3 -/

/-- C3: for every size budget `B` in bytes and every probed duration `D > 0`,
the target video bitrate planned for the first compression attempt equals
`⌊B * 8 * margin / D⌋` bits per second with the safety margin fixed at
0.85 (= 85/100), compressor.py line 49. -/
theorem C3_first_attempt_bitrate (B : ℕ) (D : ℚ) (hD : 0 < D) :
    target_bitrate B D = ⌊((B : ℚ) * 8 * (85 / 100) : ℚ) / D⌋ := by
  unfold target_bitrate pyInt
  rw [if_pos]
  exact div_nonneg (by positivity) hD.le

/-- C3 witness: the theorem applied at budget 8 bytes and duration 1 s. -/
theorem C3_witness :
    (0 : ℚ) < 1 ∧ target_bitrate 8 1 = ⌊(((8 : ℕ) : ℚ) * 8 * (85 / 100) : ℚ) / 1⌋ :=
  ⟨one_pos, C3_first_attempt_bitrate 8 1 one_pos⟩

/-! ### Claim C6 -/

/-- C6 counterexample: at size budget 1 byte and duration 10 s the base
bitrate computes to 0, and the three planned ladder bitrates are 0, 0, 0 —
not strictly decreasing, refuting the claim for that budget/duration pair. -/
theorem C6_counterexample :
    compression_levels 1 10 = [0, 0, 0] ∧
    ¬ List.Chain' (fun a b => b < a) (compression_levels 1 10) := by
  have ht : target_bitrate 1 10 = 0 := by
    unfold target_bitrate pyInt
    rw [if_pos (by norm_num)]
    rw [Int.floor_eq_zero_iff]
    constructor <;> norm_num
  have hl : compression_levels 1 10 = [0, 0, 0] := by
    unfold compression_levels
    rw [ht]
    norm_num [pyInt]
  refine ⟨hl, ?_⟩
  rw [hl]
  simp [List.chain'_cons]

theorem ladder_strict_of_three_le (t : ℤ) (h3 : 3 ≤ t) :
    pyInt ((t : ℚ) * (8 / 10)) < t ∧
    pyInt ((t : ℚ) * (6 / 10)) < pyInt ((t : ℚ) * (8 / 10)) := by
  have h0 : (0 : ℚ) < (t : ℚ) := by
    exact_mod_cast lt_of_lt_of_le (by norm_num : (0:ℤ) < 3) h3
  have h8 : pyInt ((t : ℚ) * (8 / 10)) = ⌊(t : ℚ) * (8 / 10)⌋ := by
    unfold pyInt
    rw [if_pos (by positivity)]
  have h6 : pyInt ((t : ℚ) * (6 / 10)) = ⌊(t : ℚ) * (6 / 10)⌋ := by
    unfold pyInt
    rw [if_pos (by positivity)]
  constructor
  · rw [h8]
    apply Int.floor_lt.mpr
    nlinarith
  · rw [h8, h6]
    by_cases h5 : 5 ≤ t
    · have h5q : (5 : ℚ) ≤ (t : ℚ) := by exact_mod_cast h5
      have hle : (⌊(t : ℚ) * (6 / 10)⌋ : ℚ) + 1 ≤ (t : ℚ) * (8 / 10) := by
        have := Int.floor_le ((t : ℚ) * (6 / 10))
        nlinarith
      have := Int.le_floor.mpr (by exact_mod_cast hle :
        ((⌊(t : ℚ) * (6 / 10)⌋ + 1 : ℤ) : ℚ) ≤ (t : ℚ) * (8 / 10))
      omega
    · have h34 : t = 3 ∨ t = 4 := by omega
      rcases h34 with rfl | rfl
      · norm_num
      · norm_num

/-- C6 (amended): for a fixed size budget and duration, the planned target
bitrate strictly decreases along the three-attempt ladder provided the base
target bitrate is at least 3 bps (for base bitrates 0, 1 or 2 — degenerate
budget/duration combinations — consecutive rungs coincide). -/
theorem C6_amended (B : ℕ) (D : ℚ) (h3 : 3 ≤ target_bitrate B D) :
    List.Chain' (fun a b => b < a) (compression_levels B D) := by
  have h := ladder_strict_of_three_le (target_bitrate B D) h3
  unfold compression_levels
  exact List.chain'_cons.mpr ⟨h.1, List.chain'_cons.mpr ⟨h.2, List.chain'_singleton _⟩⟩

/-- C6 witness for the amended claim: applied at budget 1 byte, duration 1 s,
where the base bitrate is 6. -/
theorem C6_witness :
    3 ≤ target_bitrate 1 1 ∧
    List.Chain' (fun a b => b < a) (compression_levels 1 1) := by
  have h : 3 ≤ target_bitrate 1 1 := by
    unfold target_bitrate pyInt
    rw [if_pos (by norm_num)]
    have : ⌊((1 : ℕ) * 8 * (85 / 100 : ℚ)) / 1⌋ = 6 := by norm_num
    omega
  exact ⟨h, C6_amended 1 1 h⟩

/-! ### Claim C1 -/

/-- C1: refuted as stated, and the code (not the claim) is at fault.  With a
probe reporting duration 0 — a non-positive duration the spec requires to be
treated as an unrecoverable probe failure returning no result — the bitrate
computation at compressor.py line 49 divides by the duration outside every
try/except, so a `ZeroDivisionError` escapes `compress_video` before any
encode attempt; with the duration missing, the claimed behaviour (return
`None`, no attempt, no exception) does hold. -/
theorem C1_zero_duration_bug :
    (compress_video (fun _ => none) "video.mp4" 8388608 3
        (ProbeRes.ok (some 0) (some 1000)) (fun _ => ⟨false, none⟩)).res =
      CompressRes.exc ∧
    (compress_video (fun _ => none) "video.mp4" 8388608 3
        (ProbeRes.ok (some 0) (some 1000)) (fun _ => ⟨false, none⟩)).execed = [] ∧
    (compress_video (fun _ => none) "video.mp4" 8388608 3
        (ProbeRes.ok none (some 1000)) (fun _ => ⟨false, none⟩)).res =
      CompressRes.ret none := by
  refine ⟨?_, ?_, rfl⟩ <;> simp [compress_video]

/-! ### Claim C4 -/

/-- C4: if compression reaches attempt `k` (every earlier attempt failed to
produce a fitting candidate) and attempt `k` produces a candidate of size ≤
the budget, then `compress_video` returns immediately with the (single,
derived) output path, exactly attempts 1..k were executed, and attempt `k+1`
is never executed: first fit wins. -/
theorem C4_first_fit (fs : FS) (input : String) (B m : ℕ) (d : ℚ) (sz : ℕ)
    (enc : ℕ → EncodeOutcome) (k : ℕ)
    (hd : d ≠ 0) (hk1 : 1 ≤ k) (hkn : k ≤ min m 3)
    (hprev : ∀ j ∈ List.range' 1 (k - 1), fitsB B (enc j) = false)
    (hfit : fitsB B (enc k) = true) :
    (compress_video fs input B m (ProbeRes.ok (some d) (some sz)) enc).res =
      CompressRes.ret (some (output_path input)) ∧
    (compress_video fs input B m (ProbeRes.ok (some d) (some sz)) enc).execed =
      List.range' 1 k ∧
    k + 1 ∉ (compress_video fs input B m (ProbeRes.ok (some d) (some sz)) enc).execed := by
  have hdec := range'_decomp k (min m 3) hk1 hkn
  have hff := compressLoop_firstFit (output_path input) B enc (List.range' 1 (k - 1)) k
    (List.range' (k + 1) (min m 3 - k)) fs hprev hfit
  rw [← hdec] at hff
  rw [compress_video_ok_some fs input B m d sz enc (output_path input) hd hff.1]
  dsimp only
  have hexec : (compressLoop (output_path input) B enc
      (List.range' 1 (min m 3)) fs).execed = List.range' 1 k := by
    rw [hff.2, range'_snoc k hk1]
  refine ⟨rfl, hexec, ?_⟩
  rw [hexec]
  intro hmem
  rw [List.mem_range'_1] at hmem
  omega

/-- C4 witness: attempt 1 raises, attempt 2 fits a 10-byte budget. -/
theorem C4_witness :
    ((1 : ℚ) ≠ 0) ∧
    (∀ j ∈ List.range' 1 (2 - 1),
      fitsB 10 ((fun j => if j = 1 then (⟨true, none⟩ : EncodeOutcome) else ⟨false, some 5⟩) j)
        = false) ∧
    fitsB 10 ((fun j => if j = 1 then (⟨true, none⟩ : EncodeOutcome) else ⟨false, some 5⟩) 2)
      = true ∧
    (compress_video (fun _ => none) "v.mp4" 10 3 (ProbeRes.ok (some 1) (some 20))
        (fun j => if j = 1 then ⟨true, none⟩ else ⟨false, some 5⟩)).res =
      CompressRes.ret (some (output_path "v.mp4")) := by
  have h1 : (1 : ℚ) ≠ 0 := one_ne_zero
  have h2 : ∀ j ∈ List.range' 1 (2 - 1),
      fitsB 10 ((fun j => if j = 1 then (⟨true, none⟩ : EncodeOutcome) else ⟨false, some 5⟩) j)
        = false := by decide
  have h3 : fitsB 10
      ((fun j => if j = 1 then (⟨true, none⟩ : EncodeOutcome) else ⟨false, some 5⟩) 2)
        = true := by decide
  exact ⟨h1, h2, h3,
    (C4_first_fit (fun _ => none) "v.mp4" 10 3 1 20
      (fun j => if j = 1 then ⟨true, none⟩ else ⟨false, some 5⟩) 2
      h1 (by norm_num) (by norm_num) h2 h3).1⟩

/-! ### Claim C5 -/

/-- C5: if every executed attempt either fails to encode or produces an
oversized candidate, `compress_video` returns `None`, nothing remains at the
candidate output path, and every other path is untouched — zero candidate
files remain on disk. -/
theorem C5_exhausted (fs : FS) (input : String) (B m : ℕ) (d : ℚ) (sz : ℕ)
    (enc : ℕ → EncodeOutcome)
    (hd : d ≠ 0)
    (hall : ∀ j ∈ List.range' 1 (min m 3), fitsB B (enc j) = false) :
    (compress_video fs input B m (ProbeRes.ok (some d) (some sz)) enc).res =
      CompressRes.ret none ∧
    (compress_video fs input B m (ProbeRes.ok (some d) (some sz)) enc).fs
      (output_path input) = none ∧
    (∀ p, p ≠ output_path input →
      (compress_video fs input B m (ProbeRes.ok (some d) (some sz)) enc).fs p = fs p) := by
  have hl := compressLoop_allNofits (output_path input) B enc
    (List.range' 1 (min m 3)) fs hall
  rw [compress_video_ok_none fs input B m d sz enc hd hl.1]
  dsimp only
  refine ⟨rfl, FS.remove_self _ _, ?_⟩
  intro p hp
  rw [FS.remove_other _ _ _ hp]
  exact compressLoop_fs_frame _ _ _ _ _ _ hp

/-- C5 witness: every attempt raises; the function returns `None` and the
candidate path is empty afterwards. -/
theorem C5_witness :
    ((1 : ℚ) ≠ 0) ∧
    (∀ j ∈ List.range' 1 (min 3 3),
      fitsB 10 ((fun _ => (⟨true, none⟩ : EncodeOutcome)) j) = false) ∧
    (compress_video (fun _ => none) "v.mp4" 10 3 (ProbeRes.ok (some 1) (some 20))
        (fun _ => ⟨true, none⟩)).res = CompressRes.ret none ∧
    (compress_video (fun _ => none) "v.mp4" 10 3 (ProbeRes.ok (some 1) (some 20))
        (fun _ => ⟨true, none⟩)).fs (output_path "v.mp4") = none := by
  have h1 : (1 : ℚ) ≠ 0 := one_ne_zero
  have h2 : ∀ j ∈ List.range' 1 (min 3 3),
      fitsB 10 ((fun _ => (⟨true, none⟩ : EncodeOutcome)) j) = false := by decide
  have h := C5_exhausted (fun _ => none) "v.mp4" 10 3 1 20 (fun _ => ⟨true, none⟩) h1 h2
  exact ⟨h1, h2, h.1, h.2.1⟩

/-! ### Claim C7 -/

/-- C7: a raised encode invocation at a reached attempt `k` is absorbed: the
ladder continues with attempt `k+1` (when one remains), and no error internal
to an attempt escapes — once the probe succeeded with a nonzero duration,
`compress_video` never ends in an escaped exception, whatever the encoder
does. -/
theorem C7_attempt_failure_recovery (fs : FS) (input : String) (B m : ℕ) (d : ℚ)
    (sz : ℕ) (enc : ℕ → EncodeOutcome) (k : ℕ) (hd : d ≠ 0) :
    (compress_video fs input B m (ProbeRes.ok (some d) (some sz)) enc).res ≠
      CompressRes.exc ∧
    (1 ≤ k → k < min m 3 →
      (∀ j ∈ List.range' 1 (k - 1), fitsB B (enc j) = false) →
      (enc k).raised = true →
      (k + 1) ∈ (compress_video fs input B m (ProbeRes.ok (some d) (some sz)) enc).execed) := by
  constructor
  · exact compress_video_res_not_exc fs input B m d sz enc hd
  · intro hk1 hkn hprev hraised
    have hkfalse : fitsB B (enc k) = false := by simp [fitsB, hraised]
    have hpre : ∀ j ∈ List.range' 1 k, fitsB B (enc j) = false := by
      intro j hj
      rw [← range'_snoc k hk1, List.mem_append] at hj
      rcases hj with hj | hj
      · exact hprev j hj
      · rw [List.mem_singleton] at hj
        subst hj
        exact hkfalse
    have hdec := range'_decomp (k + 1) (min m 3) (by omega) (by omega)
    have hmem := compressLoop_mem_exec (output_path input) B enc
      (List.range' 1 (k + 1 - 1)) (k + 1) (List.range' (k + 1 + 1) (min m 3 - (k + 1))) fs
      hpre
    rw [← hdec] at hmem
    rcases hres : (compressLoop (output_path input) B enc
        (List.range' 1 (min m 3)) fs).res with _ | q
    · rw [compress_video_ok_none fs input B m d sz enc hd hres]
      dsimp only
      exact hmem
    · rw [compress_video_ok_some fs input B m d sz enc q hd hres]
      dsimp only
      exact hmem

/-- C7 witness: attempt 1 raises; attempt 2 is still executed and the result
is not an escaped exception. -/
theorem C7_witness :
    ((1 : ℚ) ≠ 0) ∧
    ((fun _ => (⟨true, none⟩ : EncodeOutcome)) 1).raised = true ∧
    2 ∈ (compress_video (fun _ => none) "v.mp4" 10 3 (ProbeRes.ok (some 1) (some 20))
          (fun _ => ⟨true, none⟩)).execed := by
  have h1 : (1 : ℚ) ≠ 0 := one_ne_zero
  exact ⟨h1, rfl,
    (C7_attempt_failure_recovery (fun _ => none) "v.mp4" 10 3 1 20
        (fun _ => ⟨true, none⟩) 1 h1).2
      (by norm_num) (by norm_num) (by decide) rfl⟩

/-! ### Claim C10 -/

/-- C10: `compress_video` never creates, removes or modifies any path other
than the single derived output path (base + "_compressed" + extension), in the
final state and in every intermediate state; in particular the input file is
untouched whatever the probe and encoder do. -/
theorem C10_input_untouched (fs : FS) (input : String) (B m : ℕ) (pr : ProbeRes)
    (enc : ℕ → EncodeOutcome) :
    output_path input ≠ input ∧
    (∀ p, p ≠ output_path input →
      (compress_video fs input B m pr enc).fs p = fs p) ∧
    (compress_video fs input B m pr enc).fs input = fs input ∧
    (∀ s ∈ (compress_video fs input B m pr enc).trace, ∀ (p : String),
      p ≠ output_path input → s p = fs p) ∧
    output_path input = (splitext input).1 ++ "_compressed" ++ (splitext input).2 := by
  have hne := output_path_ne input
  exact ⟨hne,
    fun p hp => compress_video_fs_frame fs input B m pr enc p hp,
    compress_video_fs_frame fs input B m pr enc input (Ne.symm hne),
    compress_video_trace_frame fs input B m pr enc,
    rfl⟩

/-- C10 witness: a path distinct from the derived output path is untouched. -/
theorem C10_witness :
    ("other.mp4" ≠ output_path "v.mp4") ∧
    (compress_video (fun _ => none) "v.mp4" 10 3 ProbeRes.err
        (fun _ => ⟨true, none⟩)).fs "other.mp4" = none := by
  have hne : "other.mp4" ≠ output_path "v.mp4" := by decide
  exact ⟨hne,
    (C10_input_untouched (fun _ => none) "v.mp4" 10 3 ProbeRes.err
        (fun _ => ⟨true, none⟩)).2.1 "other.mp4" hne⟩

/-! ### Lemmas about the orchestrator -/

theorem uploadStep_replies (fs : FS) (path title : String) (up : UploadRes)
    (cl0 : List String) (tr : List (Phase × FS)) :
    (uploadStep fs path title up cl0 tr).replies = 1 := by
  cases up <;> rfl

theorem uploadStep_cleanups (fs : FS) (path title : String) (up : UploadRes)
    (cl0 : List String) (tr : List (Phase × FS)) :
    (uploadStep fs path title up cl0 tr).cleanups = cl0 ++ [path] := by
  cases up <;> rfl

theorem uploadStep_fs (fs : FS) (path title : String) (up : UploadRes)
    (cl0 : List String) (tr : List (Phase × FS)) :
    (uploadStep fs path title up cl0 tr).fs = cleanup_file path fs := by
  cases up <;> rfl

theorem uploadStep_trace (fs : FS) (path title : String) (up : UploadRes)
    (cl0 : List String) (tr : List (Phase × FS)) :
    (uploadStep fs path title up cl0 tr).trace =
      tr ++ [(Phase.normal, cleanup_file path fs)] := by
  cases up <;> rfl

theorem uploadStep_not_crashed (fs : FS) (path title : String) (up : UploadRes)
    (cl0 : List String) (tr : List (Phase × FS)) :
    (uploadStep fs path title up cl0 tr).outcome ≠ Outcome.crashed := by
  cases up <;> simp [uploadStep]

theorem uploadStep_attached (fs : FS) (path title : String) (up : UploadRes)
    (cl0 : List String) (tr : List (Phase × FS))
    (h : (uploadStep fs path title up cl0 tr).outcome = Outcome.delivered) :
    (uploadStep fs path title up cl0 tr).attachedFilename =
      some (attachment_filename title) := by
  cases up
  · rfl
  · simp [uploadStep] at h
  · simp [uploadStep] at h

theorem afterCompress_exc (fs0 : FS) (info : DLInfo) (co : CompressOut) (up : UploadRes)
    (h : co.res = CompressRes.exc) :
    afterCompress fs0 info co up =
      ⟨Outcome.crashed, co.fs, [], 0, none,
       (Phase.normal, dlWrite info fs0) ::
         co.trace.map (fun s => (Phase.compressing, s))⟩ := by
  unfold afterCompress
  rw [h]

theorem afterCompress_ret_none (fs0 : FS) (info : DLInfo) (co : CompressOut)
    (up : UploadRes) (h : co.res = CompressRes.ret none) :
    afterCompress fs0 info co up =
      ⟨Outcome.compressionFailed, cleanup_file info.filepath co.fs, [info.filepath], 1, none,
       ((Phase.normal, dlWrite info fs0) ::
         co.trace.map (fun s => (Phase.compressing, s))) ++
         [(Phase.normal, cleanup_file info.filepath co.fs)]⟩ := by
  unfold afterCompress
  rw [h]

theorem afterCompress_ret_some (fs0 : FS) (info : DLInfo) (co : CompressOut)
    (up : UploadRes) (cp : String) (h : co.res = CompressRes.ret (some cp)) :
    afterCompress fs0 info co up =
      uploadStep (cleanup_file info.filepath co.fs) cp info.title up [info.filepath]
        (((Phase.normal, dlWrite info fs0) ::
          co.trace.map (fun s => (Phase.compressing, s))) ++
          [(Phase.normal, cleanup_file info.filepath co.fs)]) := by
  unfold afterCompress
  rw [h]

theorem process_small (fs0 : FS) (cfg : Cfg) (info : DLInfo) (pr : ProbeRes)
    (enc : ℕ → EncodeOutcome) (up : UploadRes) (hsz : ¬ cfg.maxFileSize < info.filesize) :
    process_video_url fs0 cfg (some info) pr enc up =
      uploadStep (dlWrite info fs0) info.filepath info.title up []
        [(Phase.normal, dlWrite info fs0)] := by
  unfold process_video_url
  dsimp only
  rw [if_neg hsz]

theorem process_nocomp (fs0 : FS) (cfg : Cfg) (info : DLInfo) (pr : ProbeRes)
    (enc : ℕ → EncodeOutcome) (up : UploadRes) (hsz : cfg.maxFileSize < info.filesize)
    (hen : ¬ cfg.enableCompression = true) :
    process_video_url fs0 cfg (some info) pr enc up =
      ⟨Outcome.tooLarge, cleanup_file info.filepath (dlWrite info fs0), [info.filepath], 1, none,
       [(Phase.normal, dlWrite info fs0),
        (Phase.normal, cleanup_file info.filepath (dlWrite info fs0))]⟩ := by
  unfold process_video_url
  dsimp only
  rw [if_pos hsz, if_neg hen]

theorem process_comp (fs0 : FS) (cfg : Cfg) (info : DLInfo) (pr : ProbeRes)
    (enc : ℕ → EncodeOutcome) (up : UploadRes) (hsz : cfg.maxFileSize < info.filesize)
    (hen : cfg.enableCompression = true) :
    process_video_url fs0 cfg (some info) pr enc up =
      afterCompress fs0 info
        (compress_video (dlWrite info fs0) info.filepath cfg.maxFileSize
          cfg.maxAttempts pr enc) up := by
  unfold process_video_url
  dsimp only
  rw [if_pos hsz, if_pos hen]

/-! ### Claim C9 -/

set_option maxRecDepth 8192 in
/-- C9 counterexample: a delivered file with extension ".webm" is uploaded
under a filename ending in ".mp4" — the delivered file's extension is NOT
preserved (video_handler.py line 114 hardcodes ".mp4"). -/
theorem C9_counterexample :
    (process_video_url (fun _ => none) ⟨8388608, true, 3⟩
        (some ⟨"temp/a.webm", 5, "video"⟩) ProbeRes.err (fun _ => ⟨true, none⟩)
        UploadRes.ok).outcome = Outcome.delivered ∧
    (process_video_url (fun _ => none) ⟨8388608, true, 3⟩
        (some ⟨"temp/a.webm", 5, "video"⟩) ProbeRes.err (fun _ => ⟨true, none⟩)
        UploadRes.ok).attachedFilename = some "video.mp4" ∧
    (splitext "temp/a.webm").2 = ".webm" ∧
    "video.mp4" ≠ "video".take 50 ++ (splitext "temp/a.webm").2 := by
  refine ⟨rfl, ?_, by decide, by decide⟩
  decide

/-- C9 (amended): for every Delivered outcome, the uploaded attachment's
filename is the video title truncated to 50 characters with a hardcoded
".mp4" suffix, regardless of the delivered file's actual extension. -/
theorem C9_amended (fs0 : FS) (cfg : Cfg) (info : DLInfo) (pr : ProbeRes)
    (enc : ℕ → EncodeOutcome) (up : UploadRes)
    (h : (process_video_url fs0 cfg (some info) pr enc up).outcome = Outcome.delivered) :
    (process_video_url fs0 cfg (some info) pr enc up).attachedFilename =
      some (info.title.take 50 ++ ".mp4") := by
  by_cases hsz : cfg.maxFileSize < info.filesize
  · by_cases hen : cfg.enableCompression = true
    · rw [process_comp fs0 cfg info pr enc up hsz hen] at h ⊢
      rcases hres : (compress_video (dlWrite info fs0) info.filepath cfg.maxFileSize
          cfg.maxAttempts pr enc).res with _ | (_ | cp)
      · rw [afterCompress_exc _ _ _ _ hres] at h
        simp at h
      · rw [afterCompress_ret_none _ _ _ _ hres] at h
        simp at h
      · rw [afterCompress_ret_some _ _ _ _ cp hres] at h ⊢
        exact uploadStep_attached _ _ _ _ _ _ h
    · rw [process_nocomp fs0 cfg info pr enc up hsz hen] at h
      simp at h
  · rw [process_small fs0 cfg info pr enc up hsz] at h ⊢
    exact uploadStep_attached _ _ _ _ _ _ h

/-- C9 witness for the amended claim: a delivered run and its attachment
filename. -/
theorem C9_witness :
    (process_video_url (fun _ => none) ⟨8388608, true, 3⟩ (some ⟨"a.mp4", 5, "t"⟩)
        ProbeRes.err (fun _ => ⟨true, none⟩) UploadRes.ok).outcome = Outcome.delivered ∧
    (process_video_url (fun _ => none) ⟨8388608, true, 3⟩ (some ⟨"a.mp4", 5, "t"⟩)
        ProbeRes.err (fun _ => ⟨true, none⟩) UploadRes.ok).attachedFilename =
      some ("t".take 50 ++ ".mp4") := by
  have h : (process_video_url (fun _ => none) ⟨8388608, true, 3⟩ (some ⟨"a.mp4", 5, "t"⟩)
      ProbeRes.err (fun _ => ⟨true, none⟩) UploadRes.ok).outcome = Outcome.delivered := rfl
  exact ⟨h, C9_amended (fun _ => none) ⟨8388608, true, 3⟩ ⟨"a.mp4", 5, "t"⟩
    ProbeRes.err (fun _ => ⟨true, none⟩) UploadRes.ok h⟩

/-! ### Claim C2 -/

/-- C2: deleting an already-removed path through `cleanup_file` is a safe
no-op; and for every terminal outcome of one pipeline invocation (Delivered,
DownloadFailed, TooLarge, CompressionFailed, upload failure — i.e. every run
that does not end in an escaped exception), exactly one reply is emitted, each
owned asset path is passed to `cleanup_file` exactly once (the downloaded
original always, additionally the adopted compressed file when compression
succeeded, nothing else, no duplicates), and afterwards neither asset remains
on disk. -/
theorem C2_cleanup_and_notification :
    (∀ (fs : FS) (p : String), fs p = none → cleanup_file p fs = fs) ∧
    ∀ (fs0 : FS) (cfg : Cfg) (dl : Option DLInfo) (pr : ProbeRes)
      (enc : ℕ → EncodeOutcome) (up : UploadRes),
      (process_video_url fs0 cfg dl pr enc up).outcome ≠ Outcome.crashed →
      (process_video_url fs0 cfg dl pr enc up).replies = 1 ∧
      (process_video_url fs0 cfg dl pr enc up).cleanups.Nodup ∧
      (dl = none → (process_video_url fs0 cfg dl pr enc up).cleanups = []) ∧
      (∀ info, dl = some info →
        (process_video_url fs0 cfg dl pr enc up).cleanups.count info.filepath = 1 ∧
        (∀ p ∈ (process_video_url fs0 cfg dl pr enc up).cleanups,
           p = info.filepath ∨ p = output_path info.filepath) ∧
        (fs0 (output_path info.filepath) = none →
          (process_video_url fs0 cfg dl pr enc up).fs info.filepath = none ∧
          (process_video_url fs0 cfg dl pr enc up).fs (output_path info.filepath) = none)) := by
  refine ⟨fun fs p h => cleanup_file_noop p fs h, ?_⟩
  intro fs0 cfg dl pr enc up hnc
  rcases dl with _ | info
  · exact ⟨rfl, List.nodup_nil, fun _ => rfl, fun info h => Option.noConfusion h⟩
  · by_cases hsz : cfg.maxFileSize < info.filesize
    · by_cases hen : cfg.enableCompression = true
      · rw [process_comp fs0 cfg info pr enc up hsz hen] at hnc ⊢
        set co := compress_video (dlWrite info fs0) info.filepath cfg.maxFileSize
          cfg.maxAttempts pr enc with hco
        rcases hres : co.res with _ | (_ | cp)
        · rw [afterCompress_exc fs0 info co up hres] at hnc
          exact absurd rfl hnc
        · rw [afterCompress_ret_none fs0 info co up hres]
          dsimp only
          refine ⟨rfl, List.nodup_singleton _, fun h => Option.noConfusion h, ?_⟩
          intro info2 h
          injection h with h2
          subst h2
          refine ⟨by simp, ?_, ?_⟩
          · intro p hp
            rw [List.mem_singleton] at hp
            exact Or.inl hp
          · intro hout
            have hne := output_path_ne info.filepath
            refine ⟨cleanup_file_self _ _, ?_⟩
            rw [cleanup_file_other _ _ _ hne]
            have h2 := compress_video_ret_none_fs (dlWrite info fs0) info.filepath
              cfg.maxFileSize cfg.maxAttempts pr enc (by rw [← hco]; exact hres)
            rw [← hco] at h2
            rcases h2 with h2 | h2
            · rw [h2, dlWrite, FS.set_other _ _ _ _ hne, hout]
            · exact h2
        · have hcp : cp = output_path info.filepath :=
            compress_video_ret_some (dlWrite info fs0) info.filepath cfg.maxFileSize
              cfg.maxAttempts pr enc cp (by rw [← hco]; exact hres)
          subst hcp
          rw [afterCompress_ret_some fs0 info co up _ hres]
          have hne := output_path_ne info.filepath
          refine ⟨uploadStep_replies _ _ _ _ _ _, ?_, fun h => Option.noConfusion h, ?_⟩
          · rw [uploadStep_cleanups]
            simp [List.nodup_cons, Ne.symm hne]
          · intro info2 h
            injection h with h2
            subst h2
            refine ⟨?_, ?_, ?_⟩
            · rw [uploadStep_cleanups]
              simp [List.count_cons, Ne.symm hne]
            · rw [uploadStep_cleanups]
              intro p hp
              simp only [List.singleton_append, List.mem_cons, List.mem_singleton,
                List.not_mem_nil, or_false] at hp
              rcases hp with rfl | rfl
              · exact Or.inl rfl
              · exact Or.inr rfl
            · intro hout
              rw [uploadStep_fs]
              refine ⟨?_, cleanup_file_self _ _⟩
              rw [cleanup_file_other _ _ _ (Ne.symm hne)]
              exact cleanup_file_self _ _
      · rw [process_nocomp fs0 cfg info pr enc up hsz hen]
        dsimp only
        refine ⟨rfl, List.nodup_singleton _, fun h => Option.noConfusion h, ?_⟩
        intro info2 h
        injection h with h2
        subst h2
        refine ⟨by simp, ?_, ?_⟩
        · intro p hp
          rw [List.mem_singleton] at hp
          exact Or.inl hp
        · intro hout
          have hne := output_path_ne info.filepath
          refine ⟨cleanup_file_self _ _, ?_⟩
          rw [cleanup_file_other _ _ _ hne, dlWrite, FS.set_other _ _ _ _ hne, hout]
    · rw [process_small fs0 cfg info pr enc up hsz]
      refine ⟨uploadStep_replies _ _ _ _ _ _, ?_, fun h => Option.noConfusion h, ?_⟩
      · rw [uploadStep_cleanups]
        simp
      · intro info2 h
        injection h with h2
        subst h2
        refine ⟨?_, ?_, ?_⟩
        · rw [uploadStep_cleanups]
          simp
        · rw [uploadStep_cleanups]
          intro p hp
          simp only [List.nil_append, List.mem_singleton] at hp
          exact Or.inl hp
        · intro hout
          rw [uploadStep_fs]
          have hne := output_path_ne info.filepath
          refine ⟨cleanup_file_self _ _, ?_⟩
          rw [cleanup_file_other _ _ _ hne, dlWrite, FS.set_other _ _ _ _ hne, hout]

/-- C2 witness: a delivered run with one reply and its asset cleaned once. -/
theorem C2_witness :
    (process_video_url (fun _ => none) ⟨8388608, true, 3⟩ (some ⟨"b.mp4", 7, "t"⟩)
        ProbeRes.err (fun _ => ⟨true, none⟩) UploadRes.ok).outcome ≠ Outcome.crashed ∧
    (process_video_url (fun _ => none) ⟨8388608, true, 3⟩ (some ⟨"b.mp4", 7, "t"⟩)
        ProbeRes.err (fun _ => ⟨true, none⟩) UploadRes.ok).replies = 1 := by
  have h : (process_video_url (fun _ => none) ⟨8388608, true, 3⟩ (some ⟨"b.mp4", 7, "t"⟩)
      ProbeRes.err (fun _ => ⟨true, none⟩) UploadRes.ok).outcome ≠ Outcome.crashed := by
    intro h
    exact Outcome.noConfusion h
  exact ⟨h, (C2_cleanup_and_notification.2 (fun _ => none) ⟨8388608, true, 3⟩
    (some ⟨"b.mp4", 7, "t"⟩) ProbeRes.err (fun _ => ⟨true, none⟩) UploadRes.ok h).1⟩

/-! ### Claim C8 -/

/-- Number of the two request-owned paths (original and derived candidate)
currently on disk. -/
def aliveCount (a b : String) (fs : FS) : ℕ :=
  (if (fs a).isSome then 1 else 0) + (if (fs b).isSome then 1 else 0)

theorem aliveCount_le_two (a b : String) (fs : FS) : aliveCount a b fs ≤ 2 := by
  unfold aliveCount
  split <;> split <;> omega

theorem aliveCount_le_one_left (a b : String) (fs : FS) (h : fs a = none) :
    aliveCount a b fs ≤ 1 := by
  unfold aliveCount
  rw [h]
  cases hb : fs b <;> simp [hb]

theorem aliveCount_le_one_right (a b : String) (fs : FS) (h : fs b = none) :
    aliveCount a b fs ≤ 1 := by
  unfold aliveCount
  rw [h]
  cases ha : fs a <;> simp [ha]

/-- C8: starting from a filesystem with nothing at the derived candidate path,
every filesystem snapshot of one pipeline invocation touches no path other
than the downloaded original and the single derived candidate path (every
compression attempt reuses that one path); outside compression at most one of the two
request files exists — in particular the original is already gone in the first
snapshot after a successful compression — and during compression at most the
original and one in-progress candidate coexist. -/
theorem C8_single_asset (fs0 : FS) (cfg : Cfg) (info : DLInfo) (pr : ProbeRes)
    (enc : ℕ → EncodeOutcome) (up : UploadRes)
    (h2 : fs0 (output_path info.filepath) = none) :
    ∀ phs ∈ (process_video_url fs0 cfg (some info) pr enc up).trace,
      (∀ (p : String), p ≠ info.filepath → p ≠ output_path info.filepath →
        phs.2 p = fs0 p) ∧
      (phs.1 = Phase.normal →
        aliveCount info.filepath (output_path info.filepath) phs.2 ≤ 1) ∧
      (phs.1 = Phase.compressing →
        aliveCount info.filepath (output_path info.filepath) phs.2 ≤ 2) := by
  have hne : output_path info.filepath ≠ info.filepath := output_path_ne info.filepath
  have hfs1c : dlWrite info fs0 (output_path info.filepath) = none := by
    rw [dlWrite, FS.set_other _ _ _ _ hne]
    exact h2
  have hfs1_frame : ∀ (p : String), p ≠ info.filepath → dlWrite info fs0 p = fs0 p := by
    intro p hp
    rw [dlWrite, FS.set_other _ _ _ _ hp]
  have hstate1 :
      (∀ (p : String), p ≠ info.filepath → p ≠ output_path info.filepath →
        dlWrite info fs0 p = fs0 p) ∧
      aliveCount info.filepath (output_path info.filepath) (dlWrite info fs0) ≤ 1 :=
    ⟨fun p hpo _ => hfs1_frame p hpo, aliveCount_le_one_right _ _ _ hfs1c⟩
  by_cases hsz : cfg.maxFileSize < info.filesize
  · by_cases hen : cfg.enableCompression = true
    · rw [process_comp fs0 cfg info pr enc up hsz hen]
      have hcoframe := compress_video_fs_frame (dlWrite info fs0) info.filepath
        cfg.maxFileSize cfg.maxAttempts pr enc
      have hcotrace := compress_video_trace_frame (dlWrite info fs0) info.filepath
        cfg.maxFileSize cfg.maxAttempts pr enc
      set co := compress_video (dlWrite info fs0) info.filepath cfg.maxFileSize
        cfg.maxAttempts pr enc with hco
      have hcompstate : ∀ s ∈ co.trace,
          (∀ (p : String), p ≠ info.filepath → p ≠ output_path info.filepath →
            s p = fs0 p) := by
        intro s hs p hpo hpc
        rw [hcotrace s hs p hpc]
        exact hfs1_frame p hpo
      have hcofso : co.fs info.filepath = dlWrite info fs0 info.filepath :=
        hcoframe info.filepath (Ne.symm hne)
      have hs3frame : ∀ (p : String), p ≠ info.filepath → p ≠ output_path info.filepath →
          cleanup_file info.filepath co.fs p = fs0 p := by
        intro p hpo hpc
        rw [cleanup_file_other _ _ _ hpo, hcoframe p hpc]
        exact hfs1_frame p hpo
      have hs3alive :
          aliveCount info.filepath (output_path info.filepath)
            (cleanup_file info.filepath co.fs) ≤ 1 :=
        aliveCount_le_one_left _ _ _ (cleanup_file_self _ _)
      rcases hres : co.res with _ | (_ | cp)
      · rw [afterCompress_exc fs0 info co up hres]
        dsimp only
        intro phs hmem
        simp only [List.mem_cons, List.mem_map] at hmem
        rcases hmem with rfl | ⟨s, hs, rfl⟩
        · exact ⟨hstate1.1, fun _ => hstate1.2, fun h => Phase.noConfusion h⟩
        · exact ⟨hcompstate s hs, fun h => Phase.noConfusion h,
            fun _ => aliveCount_le_two _ _ _⟩
      · rw [afterCompress_ret_none fs0 info co up hres]
        dsimp only
        intro phs hmem
        simp only [List.mem_append, List.mem_cons, List.mem_map, List.mem_singleton,
          List.not_mem_nil, or_false] at hmem
        rcases hmem with (rfl | ⟨s, hs, rfl⟩) | rfl
        · exact ⟨hstate1.1, fun _ => hstate1.2, fun h => Phase.noConfusion h⟩
        · exact ⟨hcompstate s hs, fun h => Phase.noConfusion h,
            fun _ => aliveCount_le_two _ _ _⟩
        · exact ⟨hs3frame, fun _ => hs3alive, fun h => Phase.noConfusion h⟩
      · rw [afterCompress_ret_some fs0 info co up cp hres, uploadStep_trace]
        have hcp : cp = output_path info.filepath :=
          compress_video_ret_some (dlWrite info fs0) info.filepath cfg.maxFileSize
            cfg.maxAttempts pr enc cp (by rw [← hco]; exact hres)
        subst hcp
        intro phs hmem
        simp only [List.mem_append, List.mem_cons, List.mem_map, List.mem_singleton,
          List.not_mem_nil, or_false] at hmem
        rcases hmem with ((rfl | ⟨s, hs, rfl⟩) | rfl) | rfl
        · exact ⟨hstate1.1, fun _ => hstate1.2, fun h => Phase.noConfusion h⟩
        · exact ⟨hcompstate s hs, fun h => Phase.noConfusion h,
            fun _ => aliveCount_le_two _ _ _⟩
        · exact ⟨hs3frame, fun _ => hs3alive, fun h => Phase.noConfusion h⟩
        · refine ⟨?_, ?_, fun h => Phase.noConfusion h⟩
          · intro p hpo hpc
            dsimp only
            rw [cleanup_file_other _ _ _ hpc]
            exact hs3frame p hpo hpc
          · intro _
            apply aliveCount_le_one_left
            dsimp only
            rw [cleanup_file_other _ _ _ (Ne.symm hne)]
            exact cleanup_file_self _ _
    · rw [process_nocomp fs0 cfg info pr enc up hsz hen]
      dsimp only
      intro phs hmem
      simp only [List.mem_cons, List.not_mem_nil, or_false] at hmem
      rcases hmem with rfl | rfl
      · exact ⟨hstate1.1, fun _ => hstate1.2, fun h => Phase.noConfusion h⟩
      · refine ⟨?_, ?_, fun h => Phase.noConfusion h⟩
        · intro p hpo hpc
          dsimp only
          rw [cleanup_file_other _ _ _ hpo]
          exact hfs1_frame p hpo
        · intro _
          exact aliveCount_le_one_left _ _ _ (cleanup_file_self _ _)
  · rw [process_small fs0 cfg info pr enc up hsz, uploadStep_trace]
    intro phs hmem
    simp only [List.mem_append, List.mem_cons, List.mem_singleton,
      List.not_mem_nil, or_false] at hmem
    rcases hmem with rfl | rfl
    · exact ⟨hstate1.1, fun _ => hstate1.2, fun h => Phase.noConfusion h⟩
    · refine ⟨?_, ?_, fun h => Phase.noConfusion h⟩
      · intro p hpo hpc
        dsimp only
        rw [cleanup_file_other _ _ _ hpo]
        exact hfs1_frame p hpo
      · intro _
        exact aliveCount_le_one_left _ _ _ (cleanup_file_self _ _)

/-- C8 witness: the snapshot right after the download in a small-file run
holds exactly the downloaded asset. -/
theorem C8_witness :
    ((fun _ => none : FS) (output_path "a.mp4") = none) ∧
    (((Phase.normal, dlWrite ⟨"a.mp4", 5, "t"⟩ (fun _ => none)) : Phase × FS).1 =
        Phase.normal →
      aliveCount "a.mp4" (output_path "a.mp4")
        ((Phase.normal, dlWrite ⟨"a.mp4", 5, "t"⟩ (fun _ => none)) : Phase × FS).2 ≤ 1) := by
  have hm : ((Phase.normal, dlWrite ⟨"a.mp4", 5, "t"⟩ (fun _ => none)) : Phase × FS) ∈
      (process_video_url (fun _ => none) ⟨8388608, true, 3⟩ (some ⟨"a.mp4", 5, "t"⟩)
        ProbeRes.err (fun _ => ⟨true, none⟩) UploadRes.ok).trace :=
    List.mem_append_left _ (List.mem_singleton.mpr rfl)
  exact ⟨rfl,
    (C8_single_asset (fun _ => none) ⟨8388608, true, 3⟩ ⟨"a.mp4", 5, "t"⟩
      ProbeRes.err (fun _ => ⟨true, none⟩) UploadRes.ok rfl _ hm).2.1⟩

end ReelsReposter
